import Mathlib

/-!
Verification of the pydantic-gitlab data model.

The development shallowly embeds the repository source (`src/pydantic_gitlab`)
in Lean.  Raw YAML-like input data is modelled by `RawValue`; each Python
class or function is translated to a Lean structure or function of the same
name.  Fallible construction (pydantic validation) is modelled with
`Except String`.  Components of the package whose source file is not part of
the checked-out tree (the base-model framework, cache, job, and the
reference-resolution engine) are modelled from the specification; their doc
comments say so explicitly.
-/

set_option autoImplicit false

/-- A raw (untyped) document node as handed to the validators: the shallow
embedding of a Python value that came out of a YAML mapping/sequence/scalar
tree (integers, strings, lists, string-keyed dicts). -/
inductive RawValue where
  | int (n : Int)
  | str (s : String)
  | list (xs : List RawValue)
  | dict (kvs : List (String × RawValue))

mutual

/-- Python `repr` of a raw value (used by f-string interpolation of
containers in error messages). -/
def RawValue.pyRepr : RawValue → String
  | .int n => toString n
  | .str s => "\x27" ++ s ++ "\x27"
  | .list xs => "[" ++ pyReprList xs ++ "]"
  | .dict kvs => "\x7b" ++ pyReprMap kvs ++ "\x7d"

def pyReprList : List RawValue → String
  | [] => ""
  | [x] => x.pyRepr
  | x :: xs => x.pyRepr ++ ", " ++ pyReprList xs

def pyReprMap : List (String × RawValue) → String
  | [] => ""
  | [(k, v)] => "\x27" ++ k ++ "\x27: " ++ v.pyRepr
  | (k, v) :: kvs => "\x27" ++ k ++ "\x27: " ++ v.pyRepr ++ ", " ++ pyReprMap kvs

end

/-- Python `str` of a raw value, as interpolated by an f-string
(`f"... \x7bvalue\x7d"`): strings are inserted verbatim, containers and
numbers via `repr`. -/
def RawValue.pyStr : RawValue → String
  | .str s => s
  | v => v.pyRepr

/-- `isinstance(value, int)` for a raw value. -/
def RawValue.isInt : RawValue → Bool
  | .int _ => true
  | _ => false

/-- `isinstance(value, dict)` for a raw value. -/
def RawValue.isDict : RawValue → Bool
  | .dict _ => true
  | _ => false

/-- The annotated type `Union[str, List[str]]` of a matrix-dimension value
(`parallel.py`, line 14). -/
inductive MatrixValue where
  | str (s : String)
  | strList (xs : List String)
deriving DecidableEq, Repr

/-- One matrix entry, the annotated type `Dict[str, Union[str, List[str]]]`:
a dict mapping dimension names to values. -/
def MatrixEntry : Type := List (String × MatrixValue)

instance : DecidableEq MatrixEntry := by
  unfold MatrixEntry
  infer_instance

/-- Element-wise validation of a raw list against `List[str]`. -/
def decodeStrList : List RawValue → Except String (List String)
  | [] => .ok []
  | .str s :: xs =>
      match decodeStrList xs with
      | .ok ss => .ok (s :: ss)
      | .error e => .error e
  | _ :: _ => .error "Input should be a valid string"

/-- Pydantic type validation of a matrix-dimension value against
`Union[str, List[str]]`. -/
def decodeMatrixValue : RawValue → Except String MatrixValue
  | .str s => .ok (.str s)
  | .list xs =>
      match decodeStrList xs with
      | .ok ss => .ok (.strList ss)
      | .error e => .error e
  | _ => .error "Input should be a valid string or list of strings"

/-- Pairwise validation of a raw dict body against
`Dict[str, Union[str, List[str]]]`. -/
def decodeEntryPairs : List (String × RawValue) → Except String MatrixEntry
  | [] => .ok []
  | (k, v) :: kvs =>
      match decodeMatrixValue v with
      | .error e => .error e
      | .ok mv =>
          match decodeEntryPairs kvs with
          | .error e => .error e
          | .ok rest => .ok ((k, mv) :: rest)

/-- Pydantic type validation of one matrix entry against
`Dict[str, Union[str, List[str]]]`. -/
def decodeMatrixEntry : RawValue → Except String MatrixEntry
  | .dict kvs => decodeEntryPairs kvs
  | _ => .error "Input should be a valid dictionary"

/-- Element-wise validation of the matrix list body. -/
def decodeMatrixList : List RawValue → Except String (List MatrixEntry)
  | [] => .ok []
  | x :: xs =>
      match decodeMatrixEntry x with
      | .error e => .error e
      | .ok e =>
          match decodeMatrixList xs with
          | .error e2 => .error e2
          | .ok rest => .ok (e :: rest)

/-- Pydantic type validation of the `matrix` field against
`List[Dict[str, Union[str, List[str]]]]`. -/
def decodeMatrix : RawValue → Except String (List MatrixEntry)
  | .list xs => decodeMatrixList xs
  | _ => .error "Input should be a valid list"

/-- Re-encoding of a matrix-dimension value as raw data. -/
def encodeMatrixValue : MatrixValue → RawValue
  | .str s => .str s
  | .strList xs => .list (xs.map RawValue.str)

/-- Re-encoding of a matrix entry as raw data. -/
def encodeMatrixEntry (e : MatrixEntry) : RawValue :=
  .dict (e.map fun kv => (kv.1, encodeMatrixValue kv.2))

/-- Re-encoding of a whole matrix as raw data. -/
def encodeMatrix (m : List MatrixEntry) : RawValue :=
  .list (m.map encodeMatrixEntry)

/-- `GitLabCIParallelMatrix.validate_matrix` (`parallel.py` lines 16-30):
rejects an empty matrix list, then rejects any matrix entry that is an empty
dict (the `isinstance(entry, dict)` guard is enforced by the field type and
cannot fire here). -/
def GitLabCIParallelMatrix.validate_matrix (v : List MatrixEntry) : Except String (List MatrixEntry) :=
  if v.isEmpty then .error "Matrix cannot be empty" else checkEntries 0 v
where
  checkEntries : Nat → List MatrixEntry → Except String (List MatrixEntry)
    | _, [] => .ok v
    | idx, e :: es =>
        if e.isEmpty then .error ("Matrix entry " ++ toString idx ++ " cannot be empty")
        else checkEntries (idx + 1) es

/-- `GitLabCIParallelObject` (`parallel.py` lines 33-44): holds the `matrix`
field; the base model stores unrecognized keys as extension fields. -/
structure GitLabCIParallelObject where
  matrix : List MatrixEntry
  extra : List (String × RawValue)

/-- `GitLabCIParallelObject.validate_matrix` (`parallel.py` lines 38-44):
only checks that the matrix list itself is non-empty. -/
def GitLabCIParallelObject.validate_matrix (v : List MatrixEntry) : Except String (List MatrixEntry) :=
  if v.isEmpty then .error "Matrix cannot be empty" else .ok v

/-- Pydantic construction `GitLabCIParallelObject(**value)`: the required
`matrix` field is type-validated then passed through the field validator;
all other keys are kept as extension fields (the base model is configured
with extra fields allowed). -/
def mkGitLabCIParallelObject (kvs : List (String × RawValue)) : Except String GitLabCIParallelObject :=
  match kvs.lookup "matrix" with
  | none => .error "Field required: matrix"
  | some raw =>
      match decodeMatrix raw with
      | .error e => .error e
      | .ok m =>
          match GitLabCIParallelObject.validate_matrix m with
          | .error e => .error e
          | .ok m2 => .ok ⟨m2, kvs.filter fun kv => kv.1 ≠ "matrix"⟩

/-- The union type `GitLabCIParallel = Union[int, GitLabCIParallelObject]`
(`parallel.py` line 48). -/
inductive GitLabCIParallel where
  | count (n : Int)
  | object (o : GitLabCIParallelObject)

/-- `parse_parallel` (`parallel.py` lines 51-59): an integer is bounds-checked
into [2, 200]; a dict constructs a `GitLabCIParallelObject`; anything else is
rejected with an f-string error interpolating the value. -/
def parse_parallel (value : RawValue) : Except String GitLabCIParallel :=
  match value with
  | .int n =>
      if n < 2 ∨ n > 200 then .error "Parallel value must be between 2 and 200"
      else .ok (.count n)
  | .dict kvs =>
      match mkGitLabCIParallelObject kvs with
      | .error e => .error e
      | .ok o => .ok (.object o)
  | v => .error ("Invalid parallel configuration: " ++ v.pyStr)

/-- `beginsWith n h` holds when the character list `n` starts the list `h`. -/
def beginsWith : List Char → List Char → Bool
  | [], _ => true
  | _ :: _, [] => false
  | a :: as, b :: bs => a == b && beginsWith as bs

/-- `containsSub n h` holds when the character list `n` occurs contiguously
inside `h` (substring containment on `String.data`). -/
def containsSub : List Char → List Char → Bool
  | needle, [] => beginsWith needle []
  | needle, c :: rest => beginsWith needle (c :: rest) || containsSub needle rest

theorem beginsWith_append (n : List Char) :
    ∀ (h t : List Char), beginsWith n h = true → beginsWith n (h ++ t) = true := by
  induction n with
  | nil => intro h t _; rfl
  | cons a as ih =>
      intro h t hb
      cases h with
      | nil => simp [beginsWith] at hb
      | cons b bs =>
          simp only [beginsWith, Bool.and_eq_true, beq_iff_eq] at hb
          simp only [List.cons_append, beginsWith, Bool.and_eq_true, beq_iff_eq]
          exact ⟨hb.1, ih bs t hb.2⟩

theorem containsSub_nil_needle : ∀ t : List Char, containsSub [] t = true := by
  intro t
  cases t <;> simp [containsSub, beginsWith]

theorem containsSub_append (n : List Char) :
    ∀ (h t : List Char), containsSub n h = true → containsSub n (h ++ t) = true := by
  intro h
  induction h with
  | nil =>
      intro t hc
      simp only [containsSub] at hc
      cases n with
      | nil => exact containsSub_nil_needle t
      | cons a as => simp [beginsWith] at hc
  | cons b bs ih =>
      intro t hc
      simp only [containsSub, Bool.or_eq_true] at hc
      simp only [List.cons_append, containsSub, Bool.or_eq_true]
      cases hc with
      | inl hb => exact Or.inl (beginsWith_append n (b :: bs) t hb)
      | inr hr => exact Or.inr (ih t hr)

theorem decodeStrList_encode : ∀ xs : List String,
    decodeStrList (xs.map RawValue.str) = Except.ok xs := by
  intro xs
  induction xs with
  | nil => rfl
  | cons x xs ih => simp [decodeStrList, ih]

theorem decodeMatrixValue_encode (v : MatrixValue) :
    decodeMatrixValue (encodeMatrixValue v) = Except.ok v := by
  cases v with
  | str s => rfl
  | strList xs => simp [encodeMatrixValue, decodeMatrixValue, decodeStrList_encode]

theorem decodeEntryPairs_encode : ∀ e : MatrixEntry,
    decodeEntryPairs (e.map fun kv => (kv.1, encodeMatrixValue kv.2)) = Except.ok e := by
  intro e
  induction e with
  | nil => rfl
  | cons kv rest ih =>
      obtain ⟨k, v⟩ := kv
      simp [decodeEntryPairs, decodeMatrixValue_encode, ih]

theorem decodeMatrix_encode : ∀ m : List MatrixEntry,
    decodeMatrix (encodeMatrix m) = Except.ok m := by
  intro m
  simp only [encodeMatrix, decodeMatrix]
  induction m with
  | nil => rfl
  | cons e rest ih =>
      simp [decodeMatrixList, decodeMatrixEntry, encodeMatrixEntry, decodeEntryPairs_encode,
        ih]

/-- C1: `parse_parallel` returns an integer input unchanged exactly when it
lies in [2, 200] and fails with the bounds error otherwise; in particular the
inputs 1 and 250 both fail. -/
theorem parse_parallel_int_bounds :
    (∀ n : Int, parse_parallel (RawValue.int n) =
      if 2 ≤ n ∧ n ≤ 200 then Except.ok (GitLabCIParallel.count n)
      else Except.error "Parallel value must be between 2 and 200") ∧
    parse_parallel (RawValue.int 1) = Except.error "Parallel value must be between 2 and 200" ∧
    parse_parallel (RawValue.int 250) = Except.error "Parallel value must be between 2 and 200" := by
  refine ⟨fun n => ?_, rfl, rfl⟩
  simp only [parse_parallel]
  split_ifs with h1 h2 <;> first | rfl | omega

/-- C2: constructing the parallel object through `parse_parallel` fails when
the `matrix` value is an empty list and, for a non-empty (well-typed) matrix
list, succeeds with exactly that list stored in the `matrix` field. -/
theorem parse_parallel_matrix_nonempty
    (kvs : List (String × RawValue)) (m : List MatrixEntry)
    (h : kvs.lookup "matrix" = some (encodeMatrix m)) :
    parse_parallel (RawValue.dict kvs) =
      if m.isEmpty then Except.error "Matrix cannot be empty"
      else Except.ok (.object ⟨m, kvs.filter fun kv => kv.1 ≠ "matrix"⟩) := by
  simp only [parse_parallel, mkGitLabCIParallelObject, h, decodeMatrix_encode,
    GitLabCIParallelObject.validate_matrix]
  cases m with
  | nil => rfl
  | cons e rest => simp

/-- C2 witness: a concrete one-entry matrix is accepted and returned as-is. -/
theorem parse_parallel_matrix_nonempty_witness :
    parse_parallel (RawValue.dict [("matrix", encodeMatrix [[("A", MatrixValue.str "x")]])]) =
      if ([[("A", MatrixValue.str "x")]] : List MatrixEntry).isEmpty then
        Except.error "Matrix cannot be empty"
      else Except.ok (.object ⟨[[("A", MatrixValue.str "x")]],
        ([("matrix", encodeMatrix [[("A", MatrixValue.str "x")]])].filter
          fun kv => kv.1 ≠ "matrix")⟩) :=
  parse_parallel_matrix_nonempty _ _ rfl

/-- C3 counterexample: for the non-integer non-dict input `"x"`,
`parse_parallel` fails, but its error message mentions neither `integer` nor
`matrix`, so it does not name the set of accepted shapes. -/
theorem parse_parallel_error_shape_counterexample :
    (RawValue.str "x").isInt = false ∧ (RawValue.str "x").isDict = false ∧
    parse_parallel (RawValue.str "x") = Except.error "Invalid parallel configuration: x" ∧
    containsSub "integer".data "Invalid parallel configuration: x".data = false ∧
    containsSub "matrix".data "Invalid parallel configuration: x".data = false := by
  refine ⟨rfl, rfl, rfl, ?_, ?_⟩ <;> decide

/-- C3 amended: every input that is neither an integer nor a dict makes
`parse_parallel` fail (it never returns a value), with an error message that
names the `parallel` field but does not enumerate the accepted shapes. -/
theorem parse_parallel_rejects_other_types (v : RawValue)
    (hInt : v.isInt = false) (hDict : v.isDict = false) :
    parse_parallel v = Except.error ("Invalid parallel configuration: " ++ v.pyStr) ∧
    containsSub "parallel".data ("Invalid parallel configuration: " ++ v.pyStr).data = true := by
  constructor
  · cases v <;> simp_all [parse_parallel, RawValue.isInt, RawValue.isDict]
  · have hd : ("Invalid parallel configuration: " ++ v.pyStr).data =
        "Invalid parallel configuration: ".data ++ v.pyStr.data := by
      simp
    rw [hd]
    exact containsSub_append _ _ _ (by decide)

/-- C3 amended witness at the concrete input `"x"`. -/
theorem parse_parallel_rejects_other_types_witness :
    parse_parallel (RawValue.str "x") =
      Except.error ("Invalid parallel configuration: " ++ (RawValue.str "x").pyStr) ∧
    containsSub "parallel".data
      ("Invalid parallel configuration: " ++ (RawValue.str "x").pyStr).data = true :=
  parse_parallel_rejects_other_types (RawValue.str "x") rfl rfl

/-- C10: `parse_parallel` accepts a matrix whose only entry is the empty
dict, returning it unchanged — while the unused validator
`GitLabCIParallelMatrix.validate_matrix` would have rejected that entry. -/
theorem parse_parallel_accepts_empty_matrix_entry :
    parse_parallel (RawValue.dict [("matrix", RawValue.list [RawValue.dict []])]) =
      Except.ok (.object ⟨[([] : MatrixEntry)], []⟩) ∧
    GitLabCIParallelMatrix.validate_matrix [([] : MatrixEntry)] =
      Except.error "Matrix entry 0 cannot be empty" :=
  ⟨rfl, rfl⟩

/-- `isinstance(value, str)` for a raw value. -/
def RawValue.isStr : RawValue → Bool
  | .str _ => true
  | _ => false

/-- `isinstance(value, list)` for a raw value. -/
def RawValue.isList : RawValue → Bool
  | .list _ => true
  | _ => false

/-- Modelled from the spec: the scalar-or-list coercion rule of the base
entity framework (`base.py` is not part of the checked-out source tree):
"a bare string becomes a one-element list; a list is used as-is (including
an explicitly empty list, which is preserved, not rejected); any other type
is a `TypeMismatch`". -/
def coerceScalarOrList : RawValue → Except String RawValue
  | .str s => .ok (.list [.str s])
  | .list xs => .ok (.list xs)
  | _ => .error "TypeMismatch: expected string or list of strings"

/-- C5: the scalar-or-list coercion turns a bare string into a one-element
list, returns any list unchanged (hence is idempotent and maps the empty
list to the empty list, not an error and not a singleton), and rejects every
non-string non-list input with a type error. -/
theorem coerce_scalar_or_list_spec :
    (∀ s : String,
      coerceScalarOrList (RawValue.str s) = Except.ok (RawValue.list [RawValue.str s])) ∧
    (∀ xs : List RawValue,
      coerceScalarOrList (RawValue.list xs) = Except.ok (RawValue.list xs)) ∧
    coerceScalarOrList (RawValue.list []) = Except.ok (RawValue.list []) ∧
    (∀ v w : RawValue, coerceScalarOrList v = Except.ok w →
      coerceScalarOrList w = Except.ok w) ∧
    (∀ v : RawValue, v.isStr = false → v.isList = false →
      coerceScalarOrList v = Except.error "TypeMismatch: expected string or list of strings") := by
  refine ⟨fun s => rfl, fun xs => rfl, rfl, fun v w hvw => ?_, fun v hs hl => ?_⟩
  · cases v with
    | str s =>
        simp only [coerceScalarOrList, Except.ok.injEq] at hvw
        subst hvw; rfl
    | list xs =>
        simp only [coerceScalarOrList, Except.ok.injEq] at hvw
        subst hvw; rfl
    | int n => simp [coerceScalarOrList] at hvw
    | dict kvs => simp [coerceScalarOrList] at hvw
  · cases v <;> simp_all [coerceScalarOrList, RawValue.isStr, RawValue.isList]

/-- C5 witness: the idempotence and rejection conjuncts applied at concrete
inputs. -/
theorem coerce_scalar_or_list_spec_witness :
    coerceScalarOrList (RawValue.list [RawValue.str "a"]) =
      Except.ok (RawValue.list [RawValue.str "a"]) ∧
    coerceScalarOrList (RawValue.int 3) =
      Except.error "TypeMismatch: expected string or list of strings" :=
  ⟨coerce_scalar_or_list_spec.2.2.2.1 (RawValue.str "a") (RawValue.list [RawValue.str "a"]) rfl,
   coerce_scalar_or_list_spec.2.2.2.2 (RawValue.int 3) rfl rfl⟩

/-- Modelled from the spec: `GitLabCICacheKey` (`cache.py` is not part of the
checked-out source tree).  Variants `Literal(string)` or
`Object{files?, prefix?}`; exactly one of `key`/`files` may be set (not
both), and `prefix` requires `files` to be set.  The `files` field is a
normalize-to-list field. -/
structure GitLabCICacheKey where
  key : Option String
  files : Option (List String)
  prefix_ : Option String

/-- Pydantic decoding of an optional plain string field. -/
def decodeOptStr (name : String) (kvs : List (String × RawValue)) : Except String (Option String) :=
  match kvs.lookup name with
  | none => .ok none
  | some (.str s) => .ok (some s)
  | some _ => .error ("Input should be a valid string: " ++ name)

/-- Pydantic decoding of the optional `files` field, normalizing a bare
string to a one-element list. -/
def decodeOptFiles (kvs : List (String × RawValue)) : Except String (Option (List String)) :=
  match kvs.lookup "files" with
  | none => .ok none
  | some (.str s) => .ok (some [s])
  | some (.list xs) =>
      match decodeStrList xs with
      | .error e => .error e
      | .ok ss => .ok (some ss)
  | some _ => .error "Input should be a valid list: files"

/-- Modelled from the spec: construction of `GitLabCICacheKey` from a raw
mapping — decode the three optional fields, then enforce the cache-key
invariants: not both `key` and `files`, at least one of them, and `prefix`
only alongside `files`. -/
def mkGitLabCICacheKey (kvs : List (String × RawValue)) : Except String GitLabCICacheKey :=
  match decodeOptStr "key" kvs with
  | .error e => .error e
  | .ok key =>
      match decodeOptFiles kvs with
      | .error e => .error e
      | .ok files =>
          match decodeOptStr "prefix" kvs with
          | .error e => .error e
          | .ok pfx =>
              if key.isSome && files.isSome then
                .error "Cannot specify both key and files"
              else if key.isNone && files.isNone then
                .error "Either key or files must be specified"
              else if pfx.isSome && files.isNone then
                .error "prefix can only be used with files"
              else .ok ⟨key, files, pfx⟩

/-- Canonical raw encoding of the three cache-key fields. -/
def encodeCacheKeyFields (key : Option String) (files : Option (List String))
    (pfx : Option String) : List (String × RawValue) :=
  (match key with
   | none => []
   | some s => [("key", RawValue.str s)]) ++
  (match files with
   | none => []
   | some fs => [("files", RawValue.list (fs.map RawValue.str))]) ++
  (match pfx with
   | none => []
   | some s => [("prefix", RawValue.str s)])

/-- C6: cache-key construction fails with the "cannot specify both" error
whenever both `key` and `files` are given, fails when neither is given,
fails when `prefix` is given without `files`, and succeeds otherwise (one of
`key`/`files`, with `prefix` only alongside `files`). -/
theorem cache_key_invariants (key : Option String) (files : Option (List String))
    (pfx : Option String) :
    mkGitLabCICacheKey (encodeCacheKeyFields key files pfx) =
      if key.isSome ∧ files.isSome then Except.error "Cannot specify both key and files"
      else if key.isNone ∧ files.isNone then Except.error "Either key or files must be specified"
      else if pfx.isSome ∧ files.isNone then Except.error "prefix can only be used with files"
      else Except.ok ⟨key, files, pfx⟩ := by
  cases key <;> cases files <;> cases pfx <;>
    simp [mkGitLabCICacheKey, encodeCacheKeyFields, decodeOptStr, decodeOptFiles,
      decodeStrList_encode, List.lookup]

/-- Modelled from the spec: `GitLabCIJob` (`job.py` is not part of the
checked-out source tree), restricted to its executable-content fields
`script`/`run`/`trigger` plus extension-field storage; per the spec none of
the three fields is mandatory. -/
structure GitLabCIJob where
  script : Option RawValue
  run : Option RawValue
  trigger : Option RawValue
  extra : List (String × RawValue)

/-- Pydantic decoding of an optional scalar-or-list field. -/
def decodeOptScalarOrList (name : String) (kvs : List (String × RawValue)) :
    Except String (Option RawValue) :=
  match kvs.lookup name with
  | none => .ok none
  | some v =>
      match coerceScalarOrList v with
      | .error e => .error e
      | .ok w => .ok (some w)

/-- Modelled from the spec: construction of a job entity from a raw mapping.
`script` is a scalar-or-list field; `run` and `trigger` are stored
shape-checked elsewhere; no executable-content field is required. -/
def mkGitLabCIJob (kvs : List (String × RawValue)) : Except String GitLabCIJob :=
  match decodeOptScalarOrList "script" kvs with
  | .error e => .error e
  | .ok script =>
      .ok ⟨script, kvs.lookup "run", kvs.lookup "trigger",
        kvs.filter fun kv => kv.1 ≠ "script" ∧ kv.1 ≠ "run" ∧ kv.1 ≠ "trigger"⟩

/-- C7: a job block containing none of `script`, `run`, `trigger` parses
successfully, with all three fields absent in the result. -/
theorem job_without_script_run_or_trigger (kvs : List (String × RawValue))
    (hs : kvs.lookup "script" = none) (hr : kvs.lookup "run" = none)
    (ht : kvs.lookup "trigger" = none) :
    mkGitLabCIJob kvs = Except.ok ⟨none, none, none,
      kvs.filter fun kv => kv.1 ≠ "script" ∧ kv.1 ≠ "run" ∧ kv.1 ≠ "trigger"⟩ := by
  simp [mkGitLabCIJob, decodeOptScalarOrList, hs, hr, ht]

/-- C7 witness: the empty job block (`GitLabCIJob()`) parses successfully. -/
theorem job_without_script_run_or_trigger_witness :
    mkGitLabCIJob [] = Except.ok ⟨none, none, none, []⟩ :=
  job_without_script_run_or_trigger [] rfl rfl rfl

/-- Idempotence of the scalar-or-list coercion on its own outputs (helper
shared by the coercion and round-trip results). -/
theorem coerceScalarOrList_idem (v w : RawValue) (h : coerceScalarOrList v = Except.ok w) :
    coerceScalarOrList w = Except.ok w := by
  cases v with
  | str s =>
      simp only [coerceScalarOrList, Except.ok.injEq] at h
      subst h; rfl
  | list xs =>
      simp only [coerceScalarOrList, Except.ok.injEq] at h
      subst h; rfl
  | int n => simp [coerceScalarOrList] at h
  | dict kvs => simp [coerceScalarOrList] at h

/-- Modelled from the spec: the base entity framework (`base.py` is not part
of the checked-out source tree).  A schema tells which field names are
declared and how a declared field's raw value is normalized. -/
structure EntitySchema where
  isDeclared : String → Bool
  normalize : String → RawValue → Except String RawValue

/-- Modelled from the spec: an entity is a bag of declared, typed fields
(only the set ones — an unset declared field is simply absent) plus an
open-ended mapping of extension fields stored verbatim. -/
structure Entity where
  fields : List (String × RawValue)
  extensions : List (String × RawValue)

/-- Modelled from the spec: `parse(raw_mapping) -> Entity` — declared keys
are type-checked/coerced by the schema's normalizer, unknown keys become
extension fields, and any field-level failure fails the whole construction. -/
def parseEntity (sch : EntitySchema) : List (String × RawValue) → Except String Entity
  | [] => .ok ⟨[], []⟩
  | (k, v) :: rest =>
      match parseEntity sch rest with
      | .error e => .error e
      | .ok ent =>
          if sch.isDeclared k then
            match sch.normalize k v with
            | .error e => .error e
            | .ok w => .ok ⟨(k, w) :: ent.fields, ent.extensions⟩
          else .ok ⟨ent.fields, (k, v) :: ent.extensions⟩

/-- Modelled from the spec: `serialize(entity) -> raw_mapping` — declared
fields whose value is unset are omitted (they are not stored at all) and all
extension fields are merged in at the same nesting level. -/
def serializeEntity (ent : Entity) : List (String × RawValue) :=
  ent.fields ++ ent.extensions

theorem parseEntity_invariants (sch : EntitySchema) :
    ∀ (raw : List (String × RawValue)) (ent : Entity), parseEntity sch raw = .ok ent →
      (∀ kv ∈ ent.fields, sch.isDeclared kv.1 = true ∧
        ∃ v, sch.normalize kv.1 v = Except.ok kv.2) ∧
      (∀ kv ∈ ent.extensions, sch.isDeclared kv.1 = false) := by
  intro raw
  induction raw with
  | nil =>
      intro ent h
      simp only [parseEntity, Except.ok.injEq] at h
      subst h
      simp
  | cons kv rest ih =>
      obtain ⟨k, v⟩ := kv
      intro ent h
      cases hrest : parseEntity sch rest with
      | error e => simp [parseEntity, hrest] at h
      | ok ent0 =>
          obtain ⟨ihf, ihe⟩ := ih ent0 hrest
          simp only [parseEntity, hrest] at h
          split at h
          · next hd =>
              split at h
              · next e heq => cases h
              · next w heq =>
                  simp only [Except.ok.injEq] at h
                  subst h
                  refine ⟨fun kv2 hkv2 => ?_, ihe⟩
                  rcases List.mem_cons.mp hkv2 with h2 | h2
                  · subst h2
                    exact ⟨hd, v, heq⟩
                  · exact ihf kv2 h2
          · next hd =>
              simp only [Except.ok.injEq] at h
              subst h
              refine ⟨ihf, fun kv2 hkv2 => ?_⟩
              rcases List.mem_cons.mp hkv2 with h2 | h2
              · subst h2
                exact Bool.eq_false_iff.mpr hd
              · exact ihe kv2 h2

theorem parseEntity_extensions_only (sch : EntitySchema) :
    ∀ (extensions : List (String × RawValue)),
      (∀ kv ∈ extensions, sch.isDeclared kv.1 = false) →
      parseEntity sch extensions = .ok ⟨[], extensions⟩ := by
  intro extensions
  induction extensions with
  | nil => intro _; rfl
  | cons kv rest ih =>
      obtain ⟨k, v⟩ := kv
      intro he
      have hk : sch.isDeclared k = false := he (k, v) (List.mem_cons_self _ _)
      have hrest := ih fun kv2 hkv2 => he kv2 (List.mem_cons_of_mem _ hkv2)
      simp [parseEntity, hrest, hk]

theorem parseEntity_of_normalized (sch : EntitySchema) :
    ∀ (fields extensions : List (String × RawValue)),
      (∀ kv ∈ fields, sch.isDeclared kv.1 = true ∧ sch.normalize kv.1 kv.2 = Except.ok kv.2) →
      (∀ kv ∈ extensions, sch.isDeclared kv.1 = false) →
      parseEntity sch (fields ++ extensions) = .ok ⟨fields, extensions⟩ := by
  intro fields
  induction fields with
  | nil =>
      intro extensions _ he
      simpa using parseEntity_extensions_only sch extensions he
  | cons kv rest ih =>
      intro extensions hf he
      obtain ⟨k, v⟩ := kv
      have hk := hf (k, v) (List.mem_cons_self _ _)
      have hrest := ih extensions (fun kv2 hkv2 => hf kv2 (List.mem_cons_of_mem _ hkv2)) he
      simp [parseEntity, hrest, hk.1, hk.2]

/-- C4: parsing is stable over serialization — if a raw document parses to an
entity (under any schema whose normalizers are idempotent on their own
outputs), then re-parsing the serialized entity yields the same entity, and
every extension field reappears verbatim in the serialized output. -/
theorem entity_roundtrip (sch : EntitySchema)
    (hIdem : ∀ k v w, sch.normalize k v = Except.ok w → sch.normalize k w = Except.ok w)
    (raw : List (String × RawValue)) (ent : Entity)
    (h : parseEntity sch raw = .ok ent) :
    parseEntity sch (serializeEntity ent) = .ok ent ∧
    (∀ kv ∈ ent.extensions, kv ∈ serializeEntity ent) := by
  obtain ⟨hinvf, hinve⟩ := parseEntity_invariants sch raw ent h
  constructor
  · have hf : ∀ kv ∈ ent.fields, sch.isDeclared kv.1 = true ∧
        sch.normalize kv.1 kv.2 = Except.ok kv.2 := by
      intro kv hkv
      obtain ⟨hd, v, hv⟩ := hinvf kv hkv
      exact ⟨hd, hIdem kv.1 v kv.2 hv⟩
    exact parseEntity_of_normalized sch ent.fields ent.extensions hf hinve
  · intro kv hkv
    exact List.mem_append_right _ hkv

/-- Modelled from the spec: a raw document node as produced by the external
document parser (the reference engine's own source is not part of the
checked-out tree) — mapping / sequence / scalar plus the tagged reference
variant `!reference [block, path...]`, and the opaque placeholder value a
deferred load turns such a tag into. -/
inductive Node where
  | scalar (s : String)
  | seq (xs : List Node)
  | map (kvs : List (String × Node))
  | ref (block : String) (path : List String)
  | placeholder (block : String) (path : List String)

mutual

/-- Modelled from the spec: the `resolve_refs=false` load pass — every node
tagged as a reference becomes an opaque placeholder carrying its
`(block_name, field_path)`; no lookup is attempted and every other node is
left untouched. -/
def loadNoResolve : Node → Node
  | .scalar s => .scalar s
  | .seq xs => .seq (loadSeq xs)
  | .map kvs => .map (loadMap kvs)
  | .ref b p => .placeholder b p
  | .placeholder b p => .placeholder b p

def loadSeq : List Node → List Node
  | [] => []
  | x :: xs => loadNoResolve x :: loadSeq xs

def loadMap : List (String × Node) → List (String × Node)
  | [] => []
  | (k, v) :: kvs => (k, loadNoResolve v) :: loadMap kvs

end

mutual

/-- Modelled from the spec: the dump pass — serializing data that still
contains unresolved placeholders re-emits them using the original reference
tag syntax; everything else is emitted unchanged. -/
def dumpNode : Node → Node
  | .scalar s => .scalar s
  | .seq xs => .seq (dumpSeq xs)
  | .map kvs => .map (dumpMap kvs)
  | .ref b p => .ref b p
  | .placeholder b p => .ref b p

def dumpSeq : List Node → List Node
  | [] => []
  | x :: xs => dumpNode x :: dumpSeq xs

def dumpMap : List (String × Node) → List (String × Node)
  | [] => []
  | (k, v) :: kvs => (k, dumpNode v) :: dumpMap kvs

end

mutual

/-- A node is reference-free when no reference tag occurs anywhere in it
(placeholders are opaque values, not tags). -/
def refFree : Node → Bool
  | .scalar _ => true
  | .seq xs => refFreeList xs
  | .map kvs => refFreeMap kvs
  | .ref _ _ => false
  | .placeholder _ _ => true

def refFreeList : List Node → Bool
  | [] => true
  | x :: xs => refFree x && refFreeList xs

def refFreeMap : List (String × Node) → Bool
  | [] => true
  | (_, v) :: kvs => refFree v && refFreeMap kvs

end

theorem refFreeList_mem {xs : List Node} (h : refFreeList xs = true) :
    ∀ x ∈ xs, refFree x = true := by
  induction xs with
  | nil => intro x hx; cases hx
  | cons a l ih =>
      simp only [refFreeList, Bool.and_eq_true] at h
      intro x hx
      rcases List.mem_cons.mp hx with h2 | h2
      · subst h2; exact h.1
      · exact ih h.2 x h2

theorem refFreeMap_mem {kvs : List (String × Node)} (h : refFreeMap kvs = true) :
    ∀ kv ∈ kvs, refFree kv.2 = true := by
  induction kvs with
  | nil => intro kv hkv; cases hkv
  | cons a l ih =>
      obtain ⟨k, v⟩ := a
      simp only [refFreeMap, Bool.and_eq_true] at h
      intro kv hkv
      rcases List.mem_cons.mp hkv with h2 | h2
      · subst h2; exact h.1
      · exact ih h.2 kv h2

theorem loadSeq_congr (xs : List Node) (h : ∀ x ∈ xs, loadNoResolve x = x) :
    loadSeq xs = xs := by
  induction xs with
  | nil => rfl
  | cons a l ih =>
      simp only [loadSeq]
      rw [h a (List.mem_cons_self _ _), ih fun x hx => h x (List.mem_cons_of_mem _ hx)]

theorem loadMap_congr (kvs : List (String × Node)) (h : ∀ kv ∈ kvs, loadNoResolve kv.2 = kv.2) :
    loadMap kvs = kvs := by
  induction kvs with
  | nil => rfl
  | cons a l ih =>
      obtain ⟨k, v⟩ := a
      simp only [loadMap]
      rw [show loadNoResolve v = v from h (k, v) (List.mem_cons_self _ _),
        ih fun kv hkv => h kv (List.mem_cons_of_mem _ hkv)]

theorem loadNoResolve_refFree : ∀ t : Node, refFree t = true → loadNoResolve t = t
  | .scalar s, _ => rfl
  | .seq xs, h => by
      simp only [refFree] at h
      simp only [loadNoResolve]
      rw [loadSeq_congr xs fun x hx => loadNoResolve_refFree x (refFreeList_mem h x hx)]
  | .map kvs, h => by
      simp only [refFree] at h
      simp only [loadNoResolve]
      rw [loadMap_congr kvs fun kv hkv => loadNoResolve_refFree kv.2 (refFreeMap_mem h kv hkv)]
  | .placeholder b p, _ => rfl
termination_by t => sizeOf t
decreasing_by
  · have := List.sizeOf_lt_of_mem hx
    simp only [Node.seq.sizeOf_spec]
    omega
  · have h1 := List.sizeOf_lt_of_mem hkv
    have h2 : sizeOf kv.2 < sizeOf kv := by
      obtain ⟨a, b⟩ := kv
      simp only [Prod.mk.sizeOf_spec]
      omega
    simp only [Node.map.sizeOf_spec]
    omega

theorem loadSeq_dump_load (xs : List Node)
    (h : ∀ x ∈ xs, loadNoResolve (dumpNode (loadNoResolve x)) = loadNoResolve x) :
    loadSeq (dumpSeq (loadSeq xs)) = loadSeq xs := by
  induction xs with
  | nil => rfl
  | cons a l ih =>
      simp only [loadSeq, dumpSeq]
      rw [h a (List.mem_cons_self _ _), ih fun x hx => h x (List.mem_cons_of_mem _ hx)]

theorem loadMap_dump_load (kvs : List (String × Node))
    (h : ∀ kv ∈ kvs, loadNoResolve (dumpNode (loadNoResolve kv.2)) = loadNoResolve kv.2) :
    loadMap (dumpMap (loadMap kvs)) = loadMap kvs := by
  induction kvs with
  | nil => rfl
  | cons a l ih =>
      obtain ⟨k, v⟩ := a
      simp only [loadMap, dumpMap]
      rw [show loadNoResolve (dumpNode (loadNoResolve v)) = loadNoResolve v from
          h (k, v) (List.mem_cons_self _ _),
        ih fun kv hkv => h kv (List.mem_cons_of_mem _ hkv)]

theorem load_dump_load : ∀ t : Node,
    loadNoResolve (dumpNode (loadNoResolve t)) = loadNoResolve t
  | .scalar s => rfl
  | .seq xs => by
      simp only [loadNoResolve, dumpNode]
      rw [loadSeq_dump_load xs fun x hx => load_dump_load x]
  | .map kvs => by
      simp only [loadNoResolve, dumpNode]
      rw [loadMap_dump_load kvs fun kv hkv => load_dump_load kv.2]
  | .ref b p => rfl
  | .placeholder b p => rfl
termination_by t => sizeOf t
decreasing_by
  · have := List.sizeOf_lt_of_mem hx
    simp only [Node.seq.sizeOf_spec]
    omega
  · have h1 := List.sizeOf_lt_of_mem hkv
    have h2 : sizeOf kv.2 < sizeOf kv := by
      obtain ⟨a, b⟩ := kv
      simp only [Prod.mk.sizeOf_spec]
      omega
    simp only [Node.map.sizeOf_spec]
    omega

/-- C8: under `resolve_refs=false`, a reference-tagged node becomes an opaque
placeholder carrying its `(block_name, field_path)`; reference-free trees are
left untouched (no lookup happens); dumping regenerates the original tag
syntax from a placeholder; and load-then-dump-then-load yields an equal
tree. -/
theorem load_no_resolve_roundtrip :
    (∀ (b : String) (p : List String), loadNoResolve (Node.ref b p) = Node.placeholder b p) ∧
    (∀ t : Node, refFree t = true → loadNoResolve t = t) ∧
    (∀ (b : String) (p : List String), dumpNode (Node.placeholder b p) = Node.ref b p) ∧
    (∀ t : Node, loadNoResolve (dumpNode (loadNoResolve t)) = loadNoResolve t) :=
  ⟨fun _ _ => rfl, loadNoResolve_refFree, fun _ _ => rfl, load_dump_load⟩

/-- C8 witness: the untouched-tree conjunct applied to a concrete
reference-free document. -/
theorem load_no_resolve_roundtrip_witness :
    loadNoResolve (Node.map [("job", Node.map [("script",
      Node.seq [Node.scalar "echo hi"])])]) =
      Node.map [("job", Node.map [("script", Node.seq [Node.scalar "echo hi"])])] :=
  load_no_resolve_roundtrip.2.1 _ rfl

/-- Modelled from the spec: the reference-resolution error taxonomy
(`ReferenceError` kinds `UnknownBlock`, `UnknownField`, `CircularReference`,
the last carrying the offending chain). -/
inductive RefErrorKind where
  | unknownBlock (block : String)
  | unknownField (block : String) (path : List String)
  | circularReference (cycle : List String)

/-- Modelled from the spec: descending a `field_path` into a block's raw
value (`none` signals an unknown field); a path of length zero means the
entire named block. -/
def descend : List String → Node → Option Node
  | [], n => some n
  | k :: ks, .map kvs =>
      match kvs.lookup k with
      | some v => descend ks v
      | none => none
  | _ :: _, _ => none

/-- Number of top-level blocks not yet on the active resolution chain: the
first component of the resolution walk's termination measure. -/
def unvisitedCount (doc : List (String × Node)) (visited : List String) : Nat :=
  ((doc.map Prod.fst).filter fun k => decide (k ∉ visited)).length

theorem filter_length_mono {α : Type} (p q : α → Bool) (himp : ∀ x, p x = true → q x = true) :
    ∀ l : List α, (l.filter p).length ≤ (l.filter q).length := by
  intro l
  induction l with
  | nil => exact Nat.le_refl 0
  | cons a l ih =>
      simp only [List.filter]
      cases hp : p a
      · cases hq : q a
        · exact ih
        · simp only [List.length_cons]
          omega
      · rw [himp a hp]
        simp only [List.length_cons]
        omega

theorem unvisitedCount_lt (doc : List (String × Node)) (visited : List String) (b : String)
    (hb : b ∈ doc.map Prod.fst) (hnv : b ∉ visited) :
    unvisitedCount doc (b :: visited) < unvisitedCount doc visited := by
  unfold unvisitedCount
  have key : ∀ l : List String, b ∈ l →
      (l.filter fun k => decide (k ∉ b :: visited)).length <
      (l.filter fun k => decide (k ∉ visited)).length := by
    intro l hl
    induction l with
    | nil => cases hl
    | cons a l ih =>
        simp only [List.filter]
        by_cases hab : a = b
        · subst hab
          have h1 : decide (a ∉ a :: visited) = false := by simp
          have h2 : decide (a ∉ visited) = true := by simpa using hnv
          rw [h1, h2]
          have hmono := filter_length_mono (fun k => decide (k ∉ a :: visited))
            (fun k => decide (k ∉ visited)) (fun x hx => by
              simp only [decide_eq_true_eq] at hx ⊢
              exact fun h => hx (List.mem_cons_of_mem _ h)) l
          simp only [List.length_cons]
          omega
        · have hbl : b ∈ l := by
            rcases List.mem_cons.mp hl with h | h
            · exact absurd h.symm hab
            · exact h
          have hiff : (a ∉ b :: visited) ↔ (a ∉ visited) := by
            simp [List.mem_cons, hab]
          rw [show (decide (a ∉ b :: visited)) = (decide (a ∉ visited)) from
            decide_eq_decide.mpr hiff]
          cases hd : decide (a ∉ visited)
          · exact ih hbl
          · simp only [List.length_cons]
            exact Nat.succ_lt_succ (ih hbl)
  exact key (doc.map Prod.fst) hb

theorem lookup_some_mem {doc : List (String × Node)} {b : String} {v : Node}
    (h : doc.lookup b = some v) : b ∈ doc.map Prod.fst := by
  induction doc with
  | nil => cases h
  | cons kv rest ih =>
      obtain ⟨k, w⟩ := kv
      by_cases hkb : b = k
      · subst hkb
        exact List.mem_cons_self _ _
      · simp only [List.lookup, beq_eq_false_iff_ne.mpr hkb] at h
        exact List.mem_cons_of_mem _ (ih h)

mutual

/-- Modelled from the spec: the `resolve_refs=true` depth-first resolution
walk over a node, against the fixed top-level mapping `doc`, with `visited`
the blocks currently `Resolving` on the active chain.  On a tagged node: a
block already on the chain is a circular reference; an absent block an
unknown block; a failing path descent an unknown field; otherwise the
looked-up value is itself recursively resolved (with the block marked
resolving) before substitution.  The function is total — its termination is
certified by the lexicographic measure (blocks not yet on the chain, node
size). -/
def resolveNode (doc : List (String × Node)) (visited : List String) :
    Node → Except RefErrorKind Node
  | .scalar s => .ok (.scalar s)
  | .placeholder b p => .ok (.placeholder b p)
  | .seq xs =>
      match resolveSeq doc visited xs with
      | .error e => .error e
      | .ok ys => .ok (.seq ys)
  | .map kvs =>
      match resolveMap doc visited kvs with
      | .error e => .error e
      | .ok kvs2 => .ok (.map kvs2)
  | .ref b path =>
      if hb : b ∈ visited then .error (.circularReference (b :: visited))
      else
        match hl : doc.lookup b with
        | none => .error (.unknownBlock b)
        | some val =>
            match descend path val with
            | none => .error (.unknownField b path)
            | some target => resolveNode doc (b :: visited) target
termination_by t => (unvisitedCount doc visited, sizeOf t)
decreasing_by
  · exact Prod.Lex.right _ (by simp only [Node.seq.sizeOf_spec]; omega)
  · exact Prod.Lex.right _ (by simp only [Node.map.sizeOf_spec]; omega)
  · exact Prod.Lex.left _ _ (unvisitedCount_lt doc visited b (lookup_some_mem hl) hb)

def resolveSeq (doc : List (String × Node)) (visited : List String) :
    List Node → Except RefErrorKind (List Node)
  | [] => .ok []
  | x :: xs =>
      match resolveNode doc visited x with
      | .error e => .error e
      | .ok y =>
          match resolveSeq doc visited xs with
          | .error e => .error e
          | .ok ys => .ok (y :: ys)
termination_by xs => (unvisitedCount doc visited, sizeOf xs)
decreasing_by
  · exact Prod.Lex.right _ (by simp only [List.cons.sizeOf_spec]; omega)
  · exact Prod.Lex.right _ (by simp only [List.cons.sizeOf_spec]; omega)

def resolveMap (doc : List (String × Node)) (visited : List String) :
    List (String × Node) → Except RefErrorKind (List (String × Node))
  | [] => .ok []
  | (k, v) :: kvs =>
      match resolveNode doc visited v with
      | .error e => .error e
      | .ok w =>
          match resolveMap doc visited kvs with
          | .error e => .error e
          | .ok rest => .ok ((k, w) :: rest)
termination_by kvs => (unvisitedCount doc visited, sizeOf kvs)
decreasing_by
  · exact Prod.Lex.right _ (by
      simp only [List.cons.sizeOf_spec, Prod.mk.sizeOf_spec]; omega)
  · exact Prod.Lex.right _ (by simp only [List.cons.sizeOf_spec]; omega)

end

/-- A top-level mapping with the cyclic reference chain A -> B -> C -> A. -/
def cycleDoc : List (String × Node) :=
  [("A", Node.ref "B" []), ("B", Node.ref "C" []), ("C", Node.ref "A" [])]

/-- A top-level mapping with the acyclic reference chain A -> B -> C -> "v". -/
def chainDoc : List (String × Node) :=
  [("A", Node.ref "B" []), ("B", Node.ref "C" []), ("C", Node.scalar "v")]

theorem resolveSeq_refFree_aux (doc : List (String × Node)) (visited : List String)
    (xs : List Node)
    (h : ∀ x ∈ xs, ∀ r, resolveNode doc visited x = Except.ok r → refFree r = true) :
    ∀ ys, resolveSeq doc visited xs = Except.ok ys → refFreeList ys = true := by
  induction xs with
  | nil =>
      intro ys hys
      simp only [resolveSeq] at hys
      cases hys
      rfl
  | cons x xs ih =>
      intro ys hys
      simp only [resolveSeq] at hys
      split at hys
      · cases hys
      · next y hy =>
          split at hys
          · cases hys
          · next ys2 hys2 =>
              cases hys
              simp only [refFreeList, Bool.and_eq_true]
              exact ⟨h x (List.mem_cons_self _ _) y hy,
                ih (fun x2 hx2 => h x2 (List.mem_cons_of_mem _ hx2)) ys2 hys2⟩

theorem resolveMap_refFree_aux (doc : List (String × Node)) (visited : List String)
    (kvs : List (String × Node))
    (h : ∀ kv ∈ kvs, ∀ r, resolveNode doc visited kv.2 = Except.ok r → refFree r = true) :
    ∀ out, resolveMap doc visited kvs = Except.ok out → refFreeMap out = true := by
  induction kvs with
  | nil =>
      intro out hout
      simp only [resolveMap] at hout
      cases hout
      rfl
  | cons kv kvs ih =>
      obtain ⟨k, v⟩ := kv
      intro out hout
      simp only [resolveMap] at hout
      split at hout
      · cases hout
      · next w hw =>
          split at hout
          · cases hout
          · next rest hrest =>
              cases hout
              simp only [refFreeMap, Bool.and_eq_true]
              exact ⟨h (k, v) (List.mem_cons_self _ _) w hw,
                ih (fun kv2 hkv2 => h kv2 (List.mem_cons_of_mem _ hkv2)) rest hrest⟩

theorem resolveNode_refFree (doc : List (String × Node)) (visited : List String) (t : Node) :
    ∀ r, resolveNode doc visited t = Except.ok r → refFree r = true :=
  match t with
  | .scalar s => by
      intro r h
      simp only [resolveNode] at h
      cases h
      rfl
  | .placeholder b p => by
      intro r h
      simp only [resolveNode] at h
      cases h
      rfl
  | .seq xs => by
      intro r h
      simp only [resolveNode] at h
      split at h
      · cases h
      · next ys hys =>
          cases h
          exact resolveSeq_refFree_aux doc visited xs
            (fun x hx => resolveNode_refFree doc visited x) ys hys
  | .map kvs => by
      intro r h
      simp only [resolveNode] at h
      split at h
      · cases h
      · next kvs2 hkvs2 =>
          cases h
          exact resolveMap_refFree_aux doc visited kvs
            (fun kv hkv => resolveNode_refFree doc visited kv.2) kvs2 hkvs2
  | .ref b path => by
      intro r h
      simp only [resolveNode] at h
      split at h
      · cases h
      · next hb2 =>
          split at h
          · cases h
          · next val hl2 =>
              split at h
              · cases h
              · next target hdesc =>
                  exact resolveNode_refFree doc (b :: visited) target r h
termination_by (unvisitedCount doc visited, sizeOf t)
decreasing_by
  · exact Prod.Lex.right _ (by
      have := List.sizeOf_lt_of_mem hx
      simp only [Node.seq.sizeOf_spec]
      omega)
  · exact Prod.Lex.right _ (by
      have h1 := List.sizeOf_lt_of_mem hkv
      have h2 : sizeOf kv.2 < sizeOf kv := by
        obtain ⟨a, b⟩ := kv
        simp only [Prod.mk.sizeOf_spec]
        omega
      simp only [Node.map.sizeOf_spec]
      omega)
  · apply Prod.Lex.left
    apply unvisitedCount_lt
    · apply lookup_some_mem
      assumption
    · assumption

/-- C9: reference resolution terminates on every input (`resolveNode` is a
total function, certified by a lexicographic measure); the cyclic chain
A -> B -> C -> A fails with a `CircularReference` error naming the cycle
instead of looping; every successful resolution is fully transitively
expanded (no residual reference tags); and the acyclic chain
A -> B -> C -> "v" expands all the way to the literal value. -/
theorem reference_resolution_cycle_and_expansion :
    resolveNode cycleDoc [] (Node.ref "A" []) =
      Except.error (RefErrorKind.circularReference ["A", "C", "B", "A"]) ∧
    (∀ (doc : List (String × Node)) (visited : List String) (t r : Node),
      resolveNode doc visited t = Except.ok r → refFree r = true) ∧
    resolveNode chainDoc [] (Node.ref "A" []) = Except.ok (Node.scalar "v") := by
  refine ⟨?_, fun doc visited t r h => resolveNode_refFree doc visited t r h, ?_⟩
  · simp [resolveNode, cycleDoc, descend, List.lookup]
  · simp [resolveNode, chainDoc, descend, List.lookup]

/-- C9 witness: the full-expansion conjunct applied to the concrete acyclic
chain, whose successful resolution is reference-free. -/
theorem reference_resolution_cycle_and_expansion_witness :
    refFree (Node.scalar "v") = true :=
  reference_resolution_cycle_and_expansion.2.1 chainDoc [] (Node.ref "A" []) (Node.scalar "v")
    reference_resolution_cycle_and_expansion.2.2

/-- A concrete schema instance: the single scalar-or-list field `script`. -/
def scriptSchema : EntitySchema :=
  ⟨fun k => k == "script", fun _ v => coerceScalarOrList v⟩

/-- C4 witness: round trip of a concrete raw document with one declared field
and one extension field. -/
theorem entity_roundtrip_witness :
    parseEntity scriptSchema (serializeEntity
      ⟨[("script", RawValue.list [RawValue.str "echo hi"])], [("custom", RawValue.int 1)]⟩) =
      Except.ok ⟨[("script", RawValue.list [RawValue.str "echo hi"])],
        [("custom", RawValue.int 1)]⟩ ∧
    (∀ kv ∈ (⟨[("script", RawValue.list [RawValue.str "echo hi"])],
        [("custom", RawValue.int 1)]⟩ : Entity).extensions,
      kv ∈ serializeEntity ⟨[("script", RawValue.list [RawValue.str "echo hi"])],
        [("custom", RawValue.int 1)]⟩) :=
  entity_roundtrip scriptSchema (fun _ v w hw => coerceScalarOrList_idem v w hw)
    [("script", RawValue.str "echo hi"), ("custom", RawValue.int 1)]
    ⟨[("script", RawValue.list [RawValue.str "echo hi"])], [("custom", RawValue.int 1)]⟩ rfl
